import Mathlib

/-!  Verification of the ns_ann random-hyperplane LSH core (src/lsh.rs,
src/index.rs, src/distribution.rs).

Modelling conventions:
* Rust `f32` scalars are modelled by `ℚ`; every concrete scalar used below is
  a small dyadic rational on which `f32` arithmetic is exact.
* `usize` values are modelled by `ℕ`.
* A Rust panic (a failing `assert!`, a `todo!`, an out-of-bounds `unwrap` or
  slice) is modelled by `none` of an `Option` result.
* The caller-supplied rng is modelled by passing in the values it would
  produce (the hyperplane normals for `LSHDB::new`, the stream of
  `rng.gen::<T>()` draws for `random_hyperplane_normal`).
* `sort_unstable_by` returns some permutation of its input that is sorted by
  the comparator; it is modelled by `List.insertionSort`, which is one such
  permutation.  No theorem below about the build relies on the order of
  entries with equal bins.
-/

/-- Model of `pow2` from src/lsh.rs: `2usize.pow(n)`. -/
def pow2 (n : Nat) : Nat := 2 ^ n

/-- Model of `hyperplane::Sign` from src/lsh.rs. -/
inductive Sign where
  | Positive : Sign
  | Negative : Sign
deriving DecidableEq

/-- Model of the source's `derive(Default)` for `Sign`: the `#[default]`
attribute sits on the `Positive` variant. -/
def Sign.default : Sign := Sign.Positive

/-- Model of `Into<usize> for Sign`: `Positive => 1`, `Negative => 0`. -/
def Sign.intoNat : Sign → Nat
  | .Positive => 1
  | .Negative => 0

/-- The enumerate-and-fold `acc + (value << idx)` used by both
`Sign::to_usize` and `hyperplane::hyperplane_project` in src/lsh.rs,
unrolled with the running index made explicit. -/
def signAssembleAux (idx acc : Nat) : List Sign → Nat
  | [] => acc
  | s :: rest => signAssembleAux (idx + 1) (acc + Sign.intoNat s <<< idx) rest

/-- Model of `Sign::to_usize` from src/lsh.rs: it asserts
`L <= usize::BITS` (64 on the 64-bit hosts the spec considers) and then
packs the sign array; `none` models the assert panic. -/
def Sign.to_usize (l : List Sign) : Option Nat :=
  if l.length ≤ 64 then some (signAssembleAux 0 0 l) else none

/-- Model of `From<f32> for Sign`: `Positive` iff the value is strictly
greater than zero. -/
def Sign.fromRat (x : ℚ) : Sign :=
  if 0 < x then Sign.Positive else Sign.Negative

/-- Model of `ProjLSH<f32, D> for f32::proj` from src/lsh.rs.  Note that the
source's fold computes `acc + (a[idx] + b[idx])` — a sum of component sums —
even though its inline comment says "dot-product". -/
def proj (a b : List ℚ) : Sign :=
  Sign.fromRat ((a.zip b).foldl (fun acc p => acc + (p.1 + p.2)) 0)

/-- Reference definition written from the spec's words (spec, 4.2): the sign
of the multiplicative inner product `Σ a[i]·b[i]`, left-to-right, with zero
mapping to `Negative`.  It exists only to be compared with `proj` above. -/
def spec_sign_of_dot (a b : List ℚ) : Sign :=
  Sign.fromRat ((a.zip b).foldl (fun acc p => acc + p.1 * p.2) 0)

/-- Model of `hyperplane::hyperplane_project` from src/lsh.rs: map every
normal to the sign of `proj(query, normal)` and pack the sign sequence with
the enumerate-and-fold (no width assert on this path). -/
def hyperplane_project (normals : List (List ℚ)) (query : List ℚ) : Nat :=
  signAssembleAux 0 0 (normals.map (fun nrml => proj query nrml))

/-- Model of `hyperplane::random_hyperplane_normal` from src/lsh.rs, with
the rng modelled as the stream of values successive `rng.gen::<T>()` calls
return: the function draws `D` components and stores them unchanged — there
is no normalization step on this path. -/
def random_hyperplane_normal (stream : List ℚ) (D : Nat) : List ℚ :=
  stream.take D

/-- The squared L2 norm `∑ xi * xi`, mirroring the body of `mag` in
src/distribution.rs before its final `sqrt`. -/
def normSq (v : List ℚ) : ℚ := (v.map (fun x => x * x)).sum

/-- The f32 unit of least precision at 1.0, namely `2 ^ (-23)`, used by the
spec's `4·ULP·D` unit-norm tolerance. -/
def ulp32 : ℚ := 1 / 8388608

/-- Model of the `LSHDB` struct from src/lsh.rs: `bin_idx` has length
`pow2 NB` and `buf` has length `N`. -/
structure LSHDB (I : Type) where
  hyperplane_normals : List (List ℚ)
  bin_idx : List (Option Nat)
  buf : List I

/-- Model of `LSHDB::bin_range` from src/lsh.rs.  `none` models the three
panicking paths: the out-of-bounds `unwrap` guarded by
`assert!(idx < pow2(NB))`, the `todo!` taken when the bin is empty, and the
`assert!(*beg_buf_idx != end_buf_idx)`.  The end of the range is the first
occupied `bin_idx` entry after `idx`, defaulting to `N`. -/
def LSHDB.bin_range {I : Type} (db : LSHDB I) (idx : Nat) : Option (Nat × Nat) :=
  match db.bin_idx[idx]? with
  | none => none
  | some none => none
  | some (some beg) =>
    let e := ((db.bin_idx.drop (idx + 1)).findSome? id).getD db.buf.length
    if beg = e then none else some (beg, e)

/-- Model of `LSHDB::ann` from src/lsh.rs: project the query, look up the
bin's range, and yield `self.buf.iter().skip(range.start).take(range.end)`
— note the `take` argument is `range.end`, not the range's length. -/
def LSHDB.ann {I : Type} (db : LSHDB I) (q : List ℚ) : Option (List I) :=
  let idx := hyperplane_project db.hyperplane_normals q
  (db.bin_range idx).map (fun range => (db.buf.drop range.1).take range.2)

/-- Model of `LSHDB::ann_rand` from src/lsh.rs: `self.ann(q).choose(rng)`.
`choose` returns `None` exactly when the iterator is empty and otherwise
some element of it (which one depends on the rng); the facts proved below
depend only on emptiness, so the choice is modelled by `head?`. -/
def LSHDB.ann_rand {I : Type} (db : LSHDB I) (q : List ℚ) : Option (Option I) :=
  (db.ann q).map List.head?

/-- The projection pass of `LSHDB::new::build_bin_idx_buf`: pair every
identifier with the bin of its vector. -/
def projectionsOf {I : Type} (normals : List (List ℚ))
    (vectors : List (I × List ℚ)) : List (I × Nat) :=
  vectors.map (fun v => (v.1, hyperplane_project normals v.2))

/-- Model of `projections.sort_unstable_by(|a, b| a.1.cmp(&b.1))` (Rust's
tuple field `.1` is the bin component, Lean's `.2`): the library sort
returns some permutation sorted by the comparator, modelled here by
`List.insertionSort`. -/
def sortPairs {I : Type} (l : List (I × Nat)) : List (I × Nat) :=
  l.insertionSort (fun a b => a.2 ≤ b.2)

/-- The `bin_idx` pass of `LSHDB::new::build_bin_idx_buf`: for each bin
value `i` in `0..pow2(NB)`, the first index of the sorted projection array
whose bin equals `i` (`find` over `enumerate`), `none` when absent. -/
def buildBinIdx {I : Type} (nbins : Nat) (sorted : List (I × Nat)) :
    List (Option Nat) :=
  (List.range nbins).map (fun i => sorted.findIdx? (fun p => p.2 == i))

/-- Model of `LSHDB::new` from src/lsh.rs, with the hyperplane normals the
rng produced passed in explicitly (`build_hyperplanes` stores the
`random_hyperplane_normal` draws unchanged). -/
def LSHDB.new {I : Type} (NB : Nat) (normals : List (List ℚ))
    (vectors : List (I × List ℚ)) : LSHDB I :=
  let sorted := sortPairs (projectionsOf normals vectors)
  { hyperplane_normals := normals
    bin_idx := buildBinIdx (pow2 NB) sorted
    buf := sorted.map Prod.fst }

/-- Model of the `ArrIndex` struct from src/index.rs. -/
structure ArrIndex (I : Type) where
  ranges : List (Option (Nat × Nat))
  arr : List I

/-- Model of `ArrIndex::get` from src/index.rs:
`self.ranges.get(bin).cloned().flatten()` followed by `&self.arr[r.0..r.1]`.
The outer `none` models a panicking slice (start past end or end past the
array length); `some none` is the code's `None` for an out-of-range or
unset bin. -/
def ArrIndex.get {I : Type} (a : ArrIndex I) (bin : Nat) :
    Option (Option (List I)) :=
  match (a.ranges[bin]?).join with
  | some r =>
    if r.1 ≤ r.2 ∧ r.2 ≤ a.arr.length
    then some (some ((a.arr.take r.2).drop r.1))
    else none
  | none => some none

/-- The range-update loop of `ArrIndex::build_concatenate`, restricted to
the `ranges` state: at sorted position `idx` holding bin `proj`, an unset
entry becomes `(idx, N)` and a set entry `(start, _)` becomes
`(start, idx)`.  `none` models the `ranges.get_mut(proj).unwrap()` panic
when `proj` is out of bounds. -/
def updateRanges (N : Nat) :
    List (Option (Nat × Nat)) → List (Nat × (Nat × Nat)) →
    Option (List (Option (Nat × Nat)))
  | rs, [] => some rs
  | rs, (idx, pr) :: rest =>
    match rs[pr.2]? with
    | none => none
    | some cur =>
      updateRanges N
        (rs.set pr.2 (match cur with
          | some er => some (er.1, idx)
          | none => some (idx, N)))
        rest

/-- Model of `ArrIndex::build_concatenate` from src/index.rs, with the `LSH`
trait's `bin` method (the trait is declared in this repository but outside
src/, so only this caller pins it down) abstracted as the function `bin`. -/
def build_concatenate (NB : Nat) (bin : List ℚ → Nat) (x : List (List ℚ)) :
    Option (ArrIndex Nat) :=
  let tmp := x.enum.map (fun p => (p.1, bin p.2))
  let sorted := sortPairs tmp
  match updateRanges x.length (List.replicate NB none) sorted.enum with
  | none => none
  | some ranges => some { ranges := ranges, arr := sorted.map Prod.fst }

/-- Number of entries of a projection list whose bin is strictly below `b`
(the position where bin `b`'s block starts in a sorted projection list). -/
def cntLt {I : Type} (s : List (I × Nat)) (b : Nat) : Nat :=
  s.countP (fun p => decide (p.2 < b))

/-- Number of entries of a projection list whose bin equals `b`. -/
def cntEq {I : Type} (s : List (I × Nat)) (b : Nat) : Nat :=
  s.countP (fun p => p.2 == b)

/-- Hyperplane normals of a concrete build: `NB = 2`, `D = 1`, components
drawn from `[0, 1)` as `Standard` f32 sampling produces. -/
def exNormals : List (List ℚ) := [[3 / 4], [1 / 4]]

/-- Corpus of the concrete build: identifiers `0, 1, 2` landing in bins
`0`, `1` and `3` respectively. -/
def exVectors : List (Nat × List ℚ) := [(0, [-1]), (1, [-1 / 2]), (2, [0])]

/-- A concrete built database (three occupied bins, bin `2` empty). -/
def exDB : LSHDB Nat := LSHDB.new 2 exNormals exVectors

/-- Hyperplane normals of a second concrete build, again with components in
`[0, 1)`. -/
def exNormals2 : List (List ℚ) := [[1 / 4], [3 / 4]]

/-- Corpus of the second build: a single vector landing in bin `3`. -/
def exVectors2 : List (Nat × List ℚ) := [(0, [0])]

/-- A second concrete built database whose bin `2` is empty yet reachable
by a query. -/
def exDB2 : LSHDB Nat := LSHDB.new 2 exNormals2 exVectors2

instance instTotalSndLe {I : Type} :
    IsTotal (I × Nat) (fun a b => a.2 ≤ b.2) :=
  ⟨fun a b => Nat.le_total a.2 b.2⟩

instance instTransSndLe {I : Type} :
    IsTrans (I × Nat) (fun a b => a.2 ≤ b.2) :=
  ⟨fun _ _ _ h h2 => Nat.le_trans h h2⟩

/-- The sorted projection array an `LSHDB::new` build produces (the state of
`projections` after the sort, from which both `bin_idx` and `buf` are read
off). -/
def sortedProj {I : Type} (normals : List (List ℚ))
    (vectors : List (I × List ℚ)) : List (I × Nat) :=
  sortPairs (projectionsOf normals vectors)

/-- The concrete `ArrIndex` that `build_concatenate` produces for `NB = 1`,
the constant bin function and the two-vector corpus `[[0], [1]]`: one bucket
range — note its end is `1`, the index of the bucket's last element, by the
build's update rule. -/
def exArr : ArrIndex Nat := { ranges := [some (0, 1)], arr := [0, 1] }

theorem fromRat_pos {x : ℚ} (h : 0 < x) : Sign.fromRat x = Sign.Positive := by
  unfold Sign.fromRat
  exact if_pos h

theorem fromRat_neg {x : ℚ} (h : ¬ 0 < x) : Sign.fromRat x = Sign.Negative := by
  unfold Sign.fromRat
  exact if_neg h

theorem exDB_hp0 : hyperplane_project exNormals [-1] = 0 := by
  have pa : proj [(-1 : ℚ)] [3 / 4] = Sign.Negative := fromRat_neg (by norm_num)
  have pb : proj [(-1 : ℚ)] [1 / 4] = Sign.Negative := fromRat_neg (by norm_num)
  have e : hyperplane_project exNormals [-1] =
      signAssembleAux 0 0 [proj [(-1 : ℚ)] [3 / 4], proj [(-1 : ℚ)] [1 / 4]] := rfl
  rw [e, pa, pb]
  decide

theorem exDB_hp1 : hyperplane_project exNormals [-1 / 2] = 1 := by
  have pa : proj [(-1 : ℚ) / 2] [3 / 4] = Sign.Positive := fromRat_pos (by norm_num)
  have pb : proj [(-1 : ℚ) / 2] [1 / 4] = Sign.Negative := fromRat_neg (by norm_num)
  have e : hyperplane_project exNormals [-1 / 2] =
      signAssembleAux 0 0 [proj [(-1 : ℚ) / 2] [3 / 4], proj [(-1 : ℚ) / 2] [1 / 4]] := rfl
  rw [e, pa, pb]
  decide

theorem exDB_hp3 : hyperplane_project exNormals [0] = 3 := by
  have pa : proj [(0 : ℚ)] [3 / 4] = Sign.Positive := fromRat_pos (by norm_num)
  have pb : proj [(0 : ℚ)] [1 / 4] = Sign.Positive := fromRat_pos (by norm_num)
  have e : hyperplane_project exNormals [0] =
      signAssembleAux 0 0 [proj [(0 : ℚ)] [3 / 4], proj [(0 : ℚ)] [1 / 4]] := rfl
  rw [e, pa, pb]
  decide

theorem exDB_eq :
    exDB = ⟨exNormals, [some 0, some 1, none, some 2], [0, 1, 2]⟩ := by
  have hProj : projectionsOf exNormals exVectors = [(0, 0), (1, 1), (2, 3)] := by
    have e : projectionsOf exNormals exVectors =
        [(0, hyperplane_project exNormals [-1]),
         (1, hyperplane_project exNormals [-1 / 2]),
         (2, hyperplane_project exNormals [0])] := rfl
    rw [e, exDB_hp0, exDB_hp1, exDB_hp3]
  show LSHDB.new 2 exNormals exVectors = _
  unfold LSHDB.new
  rw [hProj]
  rfl

theorem exDB2_hp3 : hyperplane_project exNormals2 [0] = 3 := by
  have pa : proj [(0 : ℚ)] [1 / 4] = Sign.Positive := fromRat_pos (by norm_num)
  have pb : proj [(0 : ℚ)] [3 / 4] = Sign.Positive := fromRat_pos (by norm_num)
  have e : hyperplane_project exNormals2 [0] =
      signAssembleAux 0 0 [proj [(0 : ℚ)] [1 / 4], proj [(0 : ℚ)] [3 / 4]] := rfl
  rw [e, pa, pb]
  decide

theorem exDB2_hp2 : hyperplane_project exNormals2 [-1 / 2] = 2 := by
  have pa : proj [(-1 : ℚ) / 2] [1 / 4] = Sign.Negative := fromRat_neg (by norm_num)
  have pb : proj [(-1 : ℚ) / 2] [3 / 4] = Sign.Positive := fromRat_pos (by norm_num)
  have e : hyperplane_project exNormals2 [-1 / 2] =
      signAssembleAux 0 0 [proj [(-1 : ℚ) / 2] [1 / 4], proj [(-1 : ℚ) / 2] [3 / 4]] := rfl
  rw [e, pa, pb]
  decide

theorem exDB2_eq :
    exDB2 = ⟨exNormals2, [none, none, none, some 0], [0]⟩ := by
  have hProj : projectionsOf exNormals2 exVectors2 = [(0, 3)] := by
    have e : projectionsOf exNormals2 exVectors2 =
        [(0, hyperplane_project exNormals2 [0])] := rfl
    rw [e, exDB2_hp3]
  show LSHDB.new 2 exNormals2 exVectors2 = _
  unfold LSHDB.new
  rw [hProj]
  rfl

/-- C1: on the concrete built database `exDB`, whose bin `1` occupies the
slice `buf[1..2] = [1]`, the query `[-1/2]` hashes to bin `1` yet `ann`
yields `[1, 2]` — it takes `range.end` elements after skipping
`range.start`, so it also yields the identifier `2` stored outside bin `1`'s
range, contradicting the claim that the candidates are exactly
`buf[start..end]`. -/
theorem claim_C1_eval :
    exDB.ann [-1 / 2] = some [1, 2] ∧
    exDB.bin_range 1 = some (1, 2) ∧
    (exDB.buf.take 2).drop 1 = [1] := by
  refine ⟨?_, ?_, ?_⟩
  · have e : exDB.ann [-1 / 2] =
        (exDB.bin_range (hyperplane_project exNormals [-1 / 2])).map
          (fun range => (exDB.buf.drop range.1).take range.2) := rfl
    rw [e, exDB_hp1, exDB_eq]
    rfl
  · rw [exDB_eq]
    rfl
  · rw [exDB_eq]
    rfl

/-- C2: the code's sign projection `proj` follows the sign of
`Σ (a[i] + b[i])`, not of the multiplicative inner product the claim
mandates: at `a = (2, 0)`, `b = (-1, 0)` the inner product is `-2`, so the
claim requires `Negative`, while `proj` returns `Positive`
(the spec-reference `spec_sign_of_dot` agrees with the claim there, and on
the claim's particular test `(1, 0) · (-1, 0)` the code only accidentally
returns `Negative` because `Σ (a[i] + b[i])` is also `0`). -/
theorem claim_C2_eval :
    proj [2, 0] [-1, 0] = Sign.Positive ∧
    spec_sign_of_dot [2, 0] [-1, 0] = Sign.Negative ∧
    proj [1, 0] [-1, 0] = Sign.Negative ∧
    spec_sign_of_dot [1, 0] [-1, 0] = Sign.Negative := by
  refine ⟨fromRat_pos (by norm_num), fromRat_neg (by norm_num),
    fromRat_neg (by norm_num), fromRat_neg (by norm_num)⟩

/-- C3: on the concrete built database `exDB2` the query `[-1/2]` hashes to
bin `2`, which holds no corpus element; `bin_range` then hits the source's
`todo!` (modelled by `none`), so both `ann` and `ann_rand` panic instead of
returning an empty sequence resp. `None`. -/
theorem claim_C3_eval :
    exDB2.ann [-1 / 2] = none ∧ exDB2.ann_rand [-1 / 2] = none := by
  have e : exDB2.ann [-1 / 2] =
      (exDB2.bin_range (hyperplane_project exNormals2 [-1 / 2])).map
        (fun range => (exDB2.buf.drop range.1).take range.2) := rfl
  have h : exDB2.ann [-1 / 2] = none := by
    rw [e, exDB2_hp2, exDB2_eq]
    rfl
  exact ⟨h, by rw [LSHDB.ann_rand, h]; rfl⟩

/-- C9: the source's `derive(Default)` marks `Positive` as the default
variant, so `Sign::default()` is `Positive` and packs as bit `1`, not the
`Negative`/bit `0` neutral value the claim states (the `Positive ↦ 1`,
`Negative ↦ 0` packing itself is as claimed). -/
theorem claim_C9_eval :
    Sign.default = Sign.Positive ∧
    Sign.intoNat Sign.default = 1 ∧
    Sign.intoNat Sign.Positive = 1 ∧
    Sign.intoNat Sign.Negative = 0 :=
  ⟨rfl, rfl, rfl, rfl⟩

set_option maxRecDepth 8000 in
/-- C7: there is no build-time word-size gate.  With `NB = 65 > W = 64`,
`LSHDB::new` (which never consults `Sign::to_usize`) still produces a full
database — `pow2 65` bin slots and the corpus identifier in `buf` — and no
`ConfigurationTooWide` error exists anywhere in the code; the only width
check in the source is the `assert!` inside `Sign::to_usize`, a query-side
panic (modelled by `none`), which passes again for `L = 64 ≤ W`. -/
theorem claim_C7_eval :
    Sign.to_usize (List.replicate 65 Sign.Negative) = none ∧
    Sign.to_usize (List.replicate 64 Sign.Negative) = some 0 ∧
    (LSHDB.new 65 (List.replicate 65 [(1 : ℚ) / 2]) [(0, [(0 : ℚ)])]).bin_idx.length
      = pow2 65 ∧
    (LSHDB.new 65 (List.replicate 65 [(1 : ℚ) / 2]) [(0, [(0 : ℚ)])]).buf = [0] := by
  refine ⟨by decide, by decide, ?_, rfl⟩
  simp only [LSHDB.new, buildBinIdx, List.length_map, List.length_range]

/-- C8: `hyperplane::random_hyperplane_normal`, the sampler `LSHDB::new`
actually calls, stores the raw `rng.gen` draws without dividing by the L2
norm: an rng stream beginning `1/2, 1/2` with `D = 2` yields the stored
normal `(1/2, 1/2)` whose squared norm is `1/2`, while any vector of norm
within the claim's tolerance `4·ULP·D` of `1` has squared norm at least
`(1 - 4·ulp32·2)^2 > 1/2`. -/
theorem claim_C8_eval :
    random_hyperplane_normal [1 / 2, 1 / 2] 2 = [1 / 2, 1 / 2] ∧
    normSq (random_hyperplane_normal [1 / 2, 1 / 2] 2) = 1 / 2 ∧
    1 / 2 < (1 - 4 * ulp32 * 2) ^ 2 := by
  refine ⟨rfl, ?_, ?_⟩
  · show normSq [1 / 2, 1 / 2] = 1 / 2
    rw [normSq]
    norm_num
  · rw [ulp32]
    norm_num

theorem cntLt_succ {I : Type} (s : List (I × Nat)) (b : Nat) :
    cntLt s (b + 1) = cntLt s b + cntEq s b := by
  induction s with
  | nil => rfl
  | cons p t ih =>
    simp only [cntLt, cntEq, List.countP_cons, decide_eq_true_eq, beq_iff_eq] at ih ⊢
    rcases Nat.lt_trichotomy p.2 b with h | h | h
    · rw [if_pos h, if_pos (by omega : p.2 < b + 1), if_neg (by omega : ¬ p.2 = b)]
      omega
    · rw [if_neg (by omega : ¬ p.2 < b), if_pos (by omega : p.2 < b + 1), if_pos h]
      omega
    · rw [if_neg (by omega : ¬ p.2 < b), if_neg (by omega : ¬ p.2 < b + 1),
        if_neg (by omega : ¬ p.2 = b)]
      omega

theorem cntLt_mono {I : Type} (s : List (I × Nat)) {b c : Nat} (h : b ≤ c) :
    cntLt s b ≤ cntLt s c := by
  apply List.countP_mono_left
  intro p _ hp
  simp only [decide_eq_true_eq] at hp ⊢
  omega

theorem cntEq_zero_iff {I : Type} (s : List (I × Nat)) (b : Nat) :
    cntEq s b = 0 ↔ ∀ p ∈ s, p.2 ≠ b := by
  rw [cntEq, List.countP_eq_zero]
  simp

theorem cntEq_ne_zero_of_mem {I : Type} {s : List (I × Nat)} {p : I × Nat}
    (hp : p ∈ s) {b : Nat} (hb : p.2 = b) : cntEq s b ≠ 0 := by
  intro h0
  exact ((cntEq_zero_iff s b).mp h0) p hp hb

theorem cntLt_full {I : Type} (s : List (I × Nat)) {b : Nat}
    (h : ∀ p ∈ s, p.2 < b) : cntLt s b = s.length := by
  rw [cntLt, List.countP_eq_length]
  intro p hp
  simpa using h p hp

theorem cntLt_window {I : Type} :
    ∀ (s : List (I × Nat)) {b c : Nat}, b < c →
      (∀ d, b < d → d < c → cntEq s d = 0) →
      cntLt s c = cntLt s b + cntEq s b
  | [], _, _, _, _ => rfl
  | p :: t, b, c, hbc, hw => by
    have hwt : ∀ d, b < d → d < c → cntEq t d = 0 := by
      intro d h1 h2
      have := hw d h1 h2
      simp only [cntEq, List.countP_cons] at this ⊢
      omega
    have ht := cntLt_window t hbc hwt
    have hpd : ¬ (b < p.2 ∧ p.2 < c) := by
      intro ⟨h1, h2⟩
      have := hw p.2 h1 h2
      rw [cntEq_zero_iff] at this
      exact this p (List.mem_cons_self p t) rfl
    simp only [cntLt, cntEq, List.countP_cons, decide_eq_true_eq, beq_iff_eq] at ht ⊢
    rcases Nat.lt_trichotomy p.2 b with h | h | h
    · rw [if_pos (by omega : p.2 < c), if_pos h, if_neg (by omega : ¬ p.2 = b)]
      omega
    · rw [if_pos (by omega : p.2 < c), if_neg (by omega : ¬ p.2 < b), if_pos h]
      omega
    · rw [if_neg (by omega : ¬ p.2 < c), if_neg (by omega : ¬ p.2 < b),
        if_neg (by omega : ¬ p.2 = b)]
      omega

theorem findIdx_sorted {I : Type} :
    ∀ (s : List (I × Nat)) (b : Nat),
      List.Pairwise (fun a c => a.2 ≤ c.2) s → cntEq s b ≠ 0 → ∀ i : Nat,
      s.findIdx? (fun p => p.2 == b) i = some (cntLt s b + i)
  | [], b, _, hne, _ => by simp [cntEq] at hne
  | p :: t, b, hs, hne, i => by
    rw [List.findIdx?_cons]
    by_cases h1 : p.2 = b
    · rw [if_pos (by simpa using h1)]
      have h0 : cntLt (p :: t) b = 0 := by
        rw [cntLt, List.countP_eq_zero]
        intro q hq
        simp only [decide_eq_true_eq]
        rcases List.mem_cons.mp hq with rfl | hq2
        · omega
        · have := (List.pairwise_cons.mp hs).1 q hq2
          omega
      rw [h0, Nat.zero_add]
    · rw [if_neg (by simpa using h1)]
      have hnet : cntEq t b ≠ 0 := by
        simp only [cntEq, List.countP_cons, beq_iff_eq, if_neg h1] at hne
        simpa [cntEq] using hne
      have ih := findIdx_sorted t b (List.pairwise_cons.mp hs).2 hnet (i + 1)
      rw [ih]
      have hlt : p.2 < b := by
        obtain ⟨q, hq, hqb⟩ : ∃ q ∈ t, q.2 = b := by
          by_contra hc
          push_neg at hc
          exact hnet ((cntEq_zero_iff t b).mpr hc)
        have := (List.pairwise_cons.mp hs).1 q hq
        omega
      have : cntLt (p :: t) b = cntLt t b + 1 := by
        simp only [cntLt, List.countP_cons, decide_eq_true_eq]
        rw [if_pos hlt]
      rw [this]
      congr 1
      omega

theorem findIdx_none {I : Type} :
    ∀ (s : List (I × Nat)) (b : Nat), cntEq s b = 0 → ∀ i : Nat,
      s.findIdx? (fun p => p.2 == b) i = none
  | [], _, _, _ => rfl
  | p :: t, b, h0, i => by
    have hp : p.2 ≠ b := (cntEq_zero_iff _ _).mp h0 p (List.mem_cons_self p t)
    have ht : cntEq t b = 0 := by
      simp only [cntEq, List.countP_cons, beq_iff_eq, if_neg hp] at h0 ⊢
      simpa [cntEq] using h0
    rw [List.findIdx?_cons, if_neg (by simpa using hp)]
    exact findIdx_none t b ht (i + 1)

theorem sorted_get_block {I : Type} :
    ∀ (s : List (I × Nat)) (b : Nat), List.Pairwise (fun a c => a.2 ≤ c.2) s →
      ∀ (n : Nat) (hn : n < s.length), (s.get ⟨n, hn⟩).2 = b →
      cntLt s b ≤ n ∧ n < cntLt s b + cntEq s b
  | [], _, _, n, hn, _ => absurd hn (by simp)
  | p :: t, b, hs, 0, hn, hb => by
    simp only [List.get] at hb
    have h0 : cntLt (p :: t) b = 0 := by
      rw [cntLt, List.countP_eq_zero]
      intro q hq
      simp only [decide_eq_true_eq]
      rcases List.mem_cons.mp hq with rfl | hq2
      · omega
      · have := (List.pairwise_cons.mp hs).1 q hq2
        omega
    have h1 : cntEq (p :: t) b ≠ 0 :=
      cntEq_ne_zero_of_mem (List.mem_cons_self p t) hb
    omega
  | p :: t, b, hs, n + 1, hn, hb => by
    have hnt : n < t.length := by simpa using hn
    have hbt : (t.get ⟨n, hnt⟩).2 = b := by simpa [List.get] using hb
    have ih := sorted_get_block t b (List.pairwise_cons.mp hs).2 n hnt hbt
    have hple : p.2 ≤ b := by
      have := (List.pairwise_cons.mp hs).1 (t.get ⟨n, hnt⟩) (List.get_mem t n hnt)
      omega
    simp only [cntLt, cntEq, List.countP_cons, decide_eq_true_eq, beq_iff_eq] at ih ⊢
    by_cases h1 : p.2 < b
    · rw [if_pos h1, if_neg (by omega : ¬ p.2 = b)]
      omega
    · rw [if_neg h1, if_pos (by omega : p.2 = b)]
      omega

theorem range_drop_aux :
    ∀ (n s m : Nat), (List.range' s n).drop m = List.range' (s + m) (n - m)
  | n, s, 0 => by simp
  | 0, s, m + 1 => by simp
  | n + 1, s, m + 1 => by
    rw [List.range'_succ, List.drop_succ_cons, range_drop_aux n (s + 1) m,
      (by omega : s + 1 + m = s + (m + 1)), (by omega : n - m = n + 1 - (m + 1))]

theorem drop_range (m n : Nat) :
    (List.range n).drop m = List.range' m (n - m) := by
  rw [List.range_eq_range', range_drop_aux n 0 m, Nat.zero_add]

theorem findSome_map_range_some (f : Nat → Option Nat) :
    ∀ (n s m v : Nat), s ≤ m → m < s + n → f m = some v →
      (∀ j, s ≤ j → j < m → f j = none) →
      ((List.range' s n).map f).findSome? id = some v
  | 0, s, m, v, h1, h2, _, _ => by omega
  | n + 1, s, m, v, h1, h2, hm, hnone => by
    rw [List.range'_succ, List.map_cons, List.findSome?_cons]
    by_cases he : s = m
    · rw [he, hm]
      rfl
    · rw [hnone s (Nat.le_refl s) (by omega)]
      exact findSome_map_range_some f n (s + 1) m v (by omega) (by omega) hm
        (fun j hj1 hj2 => hnone j (by omega) hj2)

theorem findSome_map_range_none (f : Nat → Option Nat) :
    ∀ (n s : Nat), (∀ j, s ≤ j → j < s + n → f j = none) →
      ((List.range' s n).map f).findSome? id = none
  | 0, _, _ => rfl
  | n + 1, s, h => by
    rw [List.range'_succ, List.map_cons, List.findSome?_cons,
      h s (Nat.le_refl s) (by omega)]
    exact findSome_map_range_none f n (s + 1)
      (fun j hj1 hj2 => h j (by omega) (by omega))

theorem signAssembleAux_lt :
    ∀ (l : List Sign) (idx acc : Nat), acc < 2 ^ idx →
      signAssembleAux idx acc l < 2 ^ (idx + l.length)
  | [], idx, acc, h => by simpa using h
  | s :: rest, idx, acc, h => by
    have hb : Sign.intoNat s ≤ 1 := by cases s <;> simp [Sign.intoNat]
    have hsh : Sign.intoNat s <<< idx ≤ 2 ^ idx := by
      rw [Nat.shiftLeft_eq]
      calc Sign.intoNat s * 2 ^ idx ≤ 1 * 2 ^ idx :=
            Nat.mul_le_mul_right _ hb
        _ = 2 ^ idx := Nat.one_mul _
    have hstep : acc + Sign.intoNat s <<< idx < 2 ^ (idx + 1) := by
      have h2 : 2 ^ (idx + 1) = 2 ^ idx + 2 ^ idx := by
        rw [pow_succ]
        omega
      omega
    have ih := signAssembleAux_lt rest (idx + 1) (acc + Sign.intoNat s <<< idx) hstep
    have he : idx + 1 + rest.length = idx + (s :: rest).length := by
      simp [List.length_cons]
      omega
    rw [← he]
    exact ih

theorem hyperplane_project_lt (normals : List (List ℚ)) (query : List ℚ) :
    hyperplane_project normals query < pow2 normals.length := by
  have h := signAssembleAux_lt (normals.map (fun nrml => proj query nrml)) 0 0
    (by simp)
  rw [hyperplane_project, pow2]
  simpa [List.length_map] using h

theorem sum_map_zero : ∀ (l : List Nat), (l.map (fun _ => (0 : Nat))).sum = 0
  | [] => rfl
  | _ :: t => by
    rw [List.map_cons, List.sum_cons, sum_map_zero t]

theorem sum_map_add (f g : Nat → Nat) :
    ∀ (l : List Nat),
      (l.map (fun x => f x + g x)).sum = (l.map f).sum + (l.map g).sum
  | [] => rfl
  | a :: t => by
    rw [List.map_cons, List.map_cons, List.map_cons, List.sum_cons,
      List.sum_cons, List.sum_cons, sum_map_add f g t]
    omega

theorem sum_indicator_range (k : Nat) :
    ∀ (n : Nat),
      ((List.range n).map (fun b => if k == b then 1 else 0)).sum
        = if k < n then 1 else 0
  | 0 => rfl
  | n + 1 => by
    rw [List.range_succ, List.map_append, List.sum_append, sum_indicator_range k n]
    simp only [List.map_cons, List.map_nil, List.sum_cons, List.sum_nil,
      beq_iff_eq]
    rcases Nat.lt_trichotomy k n with h | h | h
    · rw [if_pos h, if_neg (by omega : ¬ k = n), if_pos (by omega : k < n + 1)]
      omega
    · rw [if_neg (by omega : ¬ k < n), if_pos h, if_pos (by omega : k < n + 1)]
      omega
    · rw [if_neg (by omega : ¬ k < n), if_neg (by omega : ¬ k = n),
        if_neg (by omega : ¬ k < n + 1)]
      omega

theorem sum_cntEq_range {I : Type} :
    ∀ (s : List (I × Nat)) (n : Nat), (∀ p ∈ s, p.2 < n) →
      ((List.range n).map (fun b => cntEq s b)).sum = s.length
  | [], n, _ => by
    have e : (List.range n).map (fun b => cntEq ([] : List (I × Nat)) b)
        = (List.range n).map (fun _ => (0 : Nat)) :=
      List.map_congr_left (fun b _ => rfl)
    rw [e, sum_map_zero]
    rfl
  | p :: t, n, h => by
    have h1 := sum_cntEq_range t n (fun q hq => h q (List.mem_cons_of_mem p hq))
    have e : (List.range n).map (fun b => cntEq (p :: t) b)
        = (List.range n).map (fun b => cntEq t b + if p.2 == b then 1 else 0) :=
      List.map_congr_left (fun b _ => by rw [cntEq, cntEq, List.countP_cons])
    rw [e, sum_map_add (fun b => cntEq t b) (fun b => if p.2 == b then 1 else 0),
      h1, sum_indicator_range p.2 n, if_pos (h p (List.mem_cons_self p t))]
    rfl

theorem sortedProj_pairwise {I : Type} (normals : List (List ℚ))
    (vectors : List (I × List ℚ)) :
    List.Pairwise (fun a c : I × Nat => a.2 ≤ c.2) (sortedProj normals vectors) :=
  List.sorted_insertionSort _ _

theorem sortedProj_perm {I : Type} (normals : List (List ℚ))
    (vectors : List (I × List ℚ)) :
    (sortedProj normals vectors).Perm (projectionsOf normals vectors) :=
  List.perm_insertionSort _ _

theorem sortedProj_length {I : Type} (normals : List (List ℚ))
    (vectors : List (I × List ℚ)) :
    (sortedProj normals vectors).length = vectors.length := by
  rw [sortedProj, sortPairs, List.length_insertionSort, projectionsOf,
    List.length_map]

theorem sortedProj_keys_lt {I : Type} (NB : Nat) (normals : List (List ℚ))
    (vectors : List (I × List ℚ)) (hNB : normals.length = NB) :
    ∀ p ∈ sortedProj normals vectors, p.2 < pow2 NB := by
  intro p hp
  have hp2 : p ∈ projectionsOf normals vectors :=
    (sortedProj_perm normals vectors).mem_iff.mp hp
  rw [projectionsOf] at hp2
  obtain ⟨v, _, rfl⟩ := List.mem_map.mp hp2
  have h := hyperplane_project_lt normals v.2
  rw [hNB] at h
  exact h

theorem new_binIdxLen {I : Type} (NB : Nat) (normals : List (List ℚ))
    (vectors : List (I × List ℚ)) :
    (LSHDB.new NB normals vectors).bin_idx.length = pow2 NB := by
  simp only [LSHDB.new, buildBinIdx, List.length_map, List.length_range]

theorem new_bufLen {I : Type} (NB : Nat) (normals : List (List ℚ))
    (vectors : List (I × List ℚ)) :
    (LSHDB.new NB normals vectors).buf.length = vectors.length := by
  show ((sortedProj normals vectors).map Prod.fst).length = _
  rw [List.length_map, sortedProj_length]

theorem new_binIdx_get {I : Type} (NB : Nat) (normals : List (List ℚ))
    (vectors : List (I × List ℚ)) {b : Nat} (hb : b < pow2 NB) :
    (LSHDB.new NB normals vectors).bin_idx[b]? =
      some ((sortedProj normals vectors).findIdx? (fun p => p.2 == b)) := by
  show (buildBinIdx (pow2 NB) (sortedProj normals vectors))[b]? = _
  rw [buildBinIdx, List.getElem?_map, List.getElem?_range hb]
  rfl

theorem new_binIdx_drop {I : Type} (NB : Nat) (normals : List (List ℚ))
    (vectors : List (I × List ℚ)) (b : Nat) :
    (LSHDB.new NB normals vectors).bin_idx.drop (b + 1) =
      (List.range' (b + 1) (pow2 NB - (b + 1))).map
        (fun i => (sortedProj normals vectors).findIdx? (fun p => p.2 == i)) := by
  show (buildBinIdx (pow2 NB) (sortedProj normals vectors)).drop (b + 1) = _
  rw [buildBinIdx, ← List.map_drop, drop_range]

theorem bin_range_eq_of_get {I : Type} (db : LSHDB I) (idx beg : Nat)
    (h : db.bin_idx[idx]? = some (some beg)) :
    db.bin_range idx =
      if beg = ((db.bin_idx.drop (idx + 1)).findSome? id).getD db.buf.length
      then none
      else some (beg, ((db.bin_idx.drop (idx + 1)).findSome? id).getD db.buf.length) := by
  rw [LSHDB.bin_range, h]

theorem bin_range_none_oob {I : Type} (db : LSHDB I) (idx : Nat)
    (h : db.bin_idx[idx]? = none) : db.bin_range idx = none := by
  rw [LSHDB.bin_range, h]

theorem bin_range_none_empty {I : Type} (db : LSHDB I) (idx : Nat)
    (h : db.bin_idx[idx]? = some none) : db.bin_range idx = none := by
  rw [LSHDB.bin_range, h]

theorem bin_range_new {I : Type} (NB : Nat) (normals : List (List ℚ))
    (vectors : List (I × List ℚ)) (hNB : normals.length = NB) (b : Nat)
    (hne : cntEq (sortedProj normals vectors) b ≠ 0) :
    (LSHDB.new NB normals vectors).bin_range b =
      some (cntLt (sortedProj normals vectors) b,
        cntLt (sortedProj normals vectors) b +
          cntEq (sortedProj normals vectors) b) := by
  have hsort := sortedProj_pairwise normals vectors
  have hkeys := sortedProj_keys_lt NB normals vectors hNB
  obtain ⟨p0, hp0, hp0b⟩ : ∃ p ∈ sortedProj normals vectors, p.2 = b := by
    by_contra hc
    push_neg at hc
    exact hne ((cntEq_zero_iff _ _).mpr hc)
  have hb : b < pow2 NB := by
    have := hkeys p0 hp0
    omega
  have hFind := findIdx_sorted (sortedProj normals vectors) b hsort hne 0
  have hGet : (LSHDB.new NB normals vectors).bin_idx[b]? =
      some (some (cntLt (sortedProj normals vectors) b)) := by
    rw [new_binIdx_get NB normals vectors hb, hFind, Nat.add_zero]
  have hDrop := new_binIdx_drop NB normals vectors b
  rw [bin_range_eq_of_get _ _ _ hGet]
  by_cases hex : ∃ c, b < c ∧ c < pow2 NB ∧ cntEq (sortedProj normals vectors) c ≠ 0
  · have hc0 := Nat.find_spec hex
    have hFS : ((LSHDB.new NB normals vectors).bin_idx.drop (b + 1)).findSome? id
        = some (cntLt (sortedProj normals vectors) (Nat.find hex)) := by
      rw [hDrop]
      apply findSome_map_range_some
        (fun i => (sortedProj normals vectors).findIdx? (fun p => p.2 == i))
        (pow2 NB - (b + 1)) (b + 1) (Nat.find hex)
        (cntLt (sortedProj normals vectors) (Nat.find hex))
        (by omega) (by omega)
      · have := findIdx_sorted (sortedProj normals vectors) (Nat.find hex) hsort
          hc0.2.2 0
        rw [this, Nat.add_zero]
      · intro j hj1 hj2
        have hj0 : cntEq (sortedProj normals vectors) j = 0 := by
          by_contra hjne
          exact Nat.find_min hex hj2 ⟨by omega, by omega, hjne⟩
        exact findIdx_none _ _ hj0 0
    have hwin : cntLt (sortedProj normals vectors) (Nat.find hex)
        = cntLt (sortedProj normals vectors) b
          + cntEq (sortedProj normals vectors) b := by
      apply cntLt_window _ hc0.1
      intro d hd1 hd2
      by_contra hdne
      exact Nat.find_min hex hd2 ⟨hd1, by omega, hdne⟩
    rw [hFS]
    simp only [Option.getD_some]
    rw [hwin, if_neg (by omega :
      ¬ cntLt (sortedProj normals vectors) b
        = cntLt (sortedProj normals vectors) b
          + cntEq (sortedProj normals vectors) b)]
  · push_neg at hex
    have hFS : ((LSHDB.new NB normals vectors).bin_idx.drop (b + 1)).findSome? id
        = none := by
      rw [hDrop]
      apply findSome_map_range_none
      intro j hj1 hj2
      exact findIdx_none _ _ (hex j (by omega) (by omega)) 0
    have hAll : ∀ p ∈ sortedProj normals vectors, p.2 < b + 1 := by
      intro p hp
      by_contra hgt
      push_neg at hgt
      have h1 := hkeys p hp
      have h2 := hex p.2 (by omega) (by omega)
      exact (cntEq_ne_zero_of_mem hp rfl) h2
    have hlen := cntLt_full (sortedProj normals vectors) hAll
    have hsucc := cntLt_succ (sortedProj normals vectors) b
    have hsl := sortedProj_length normals vectors
    have hvl : vectors.length
        = cntLt (sortedProj normals vectors) b
          + cntEq (sortedProj normals vectors) b := by
      omega
    rw [hFS]
    simp only [Option.getD_none]
    rw [new_bufLen, hvl, if_neg (by omega :
      ¬ cntLt (sortedProj normals vectors) b
        = cntLt (sortedProj normals vectors) b
          + cntEq (sortedProj normals vectors) b)]

theorem bin_range_new_empty {I : Type} (NB : Nat) (normals : List (List ℚ))
    (vectors : List (I × List ℚ)) {b : Nat} (hb : b < pow2 NB)
    (h0 : cntEq (sortedProj normals vectors) b = 0) :
    (LSHDB.new NB normals vectors).bin_range b = none := by
  apply bin_range_none_empty
  rw [new_binIdx_get NB normals vectors hb, findIdx_none _ _ h0 0]

theorem bin_range_new_oob {I : Type} (NB : Nat) (normals : List (List ℚ))
    (vectors : List (I × List ℚ)) {b : Nat} (hb : pow2 NB ≤ b) :
    (LSHDB.new NB normals vectors).bin_range b = none := by
  apply bin_range_none_oob
  apply List.getElem?_eq_none
  rw [new_binIdxLen]
  exact hb

theorem bin_range_new_inv {I : Type} (NB : Nat) (normals : List (List ℚ))
    (vectors : List (I × List ℚ)) {b : Nat} {r : Nat × Nat}
    (h : (LSHDB.new NB normals vectors).bin_range b = some r) :
    b < pow2 NB ∧ cntEq (sortedProj normals vectors) b ≠ 0 := by
  by_cases hb : b < pow2 NB
  · refine ⟨hb, ?_⟩
    intro h0
    rw [bin_range_new_empty NB normals vectors hb h0] at h
    exact Option.noConfusion h
  · rw [bin_range_new_oob NB normals vectors (by omega)] at h
    exact Option.noConfusion h

theorem get_take_drop {I : Type} (l : List I) (c e i : Nat)
    (h : i < ((l.drop c).take e).length) :
    ((l.drop c).take e).get ⟨i, h⟩ = l.get ⟨c + i, by
      rw [List.length_take, List.length_drop] at h
      omega⟩ := by
  rw [List.get_eq_getElem, List.get_eq_getElem, List.getElem_take,
    List.getElem_drop]

theorem bin_range_new_ordered {I : Type} (NB : Nat) (normals : List (List ℚ))
    (vectors : List (I × List ℚ)) (hNB : normals.length = NB)
    {b1 b2 : Nat} {r1 r2 : Nat × Nat} (hlt : b1 < b2)
    (h1 : (LSHDB.new NB normals vectors).bin_range b1 = some r1)
    (h2 : (LSHDB.new NB normals vectors).bin_range b2 = some r2) :
    r1.2 ≤ r2.1 := by
  obtain ⟨hb1, hne1⟩ := bin_range_new_inv NB normals vectors h1
  obtain ⟨hb2, hne2⟩ := bin_range_new_inv NB normals vectors h2
  rw [bin_range_new NB normals vectors hNB b1 hne1] at h1
  rw [bin_range_new NB normals vectors hNB b2 hne2] at h2
  have e1 := Option.some.inj h1
  have e2 := Option.some.inj h2
  rw [← e1, ← e2]
  have hsucc := cntLt_succ (sortedProj normals vectors) b1
  have hmono := cntLt_mono (sortedProj normals vectors)
    (by omega : b1 + 1 ≤ b2)
  simp only []
  omega

/-- C4: for every database built by `LSHDB::new`, the bucket ranges that
`bin_range` reads off `bin_idx` for the non-empty bins are ordered
(`b1 < b2` implies `end₁ ≤ start₂`), their lengths `end - start` sum to `N`,
every position of `[0, N)` is covered by some bin's range, and ranges of
distinct bins are pairwise disjoint. -/
theorem claim_C4 {I : Type} (NB : Nat) (normals : List (List ℚ))
    (vectors : List (I × List ℚ)) (db : LSHDB I)
    (hNB : normals.length = NB) (hdb : db = LSHDB.new NB normals vectors) :
    (∀ b1 b2 : Nat, ∀ r1 r2 : Nat × Nat, b1 < b2 → db.bin_range b1 = some r1 →
      db.bin_range b2 = some r2 → r1.2 ≤ r2.1) ∧
    ((List.range (pow2 NB)).map (fun b =>
        match db.bin_range b with
        | some r => r.2 - r.1
        | none => 0)).sum = vectors.length ∧
    (∀ p, p < vectors.length → ∃ b : Nat, ∃ r : Nat × Nat, b < pow2 NB ∧
      db.bin_range b = some r ∧ r.1 ≤ p ∧ p < r.2) ∧
    (∀ b1 b2 : Nat, ∀ r1 r2 : Nat × Nat, b1 ≠ b2 → db.bin_range b1 = some r1 →
      db.bin_range b2 = some r2 →
      ∀ p, ¬ (r1.1 ≤ p ∧ p < r1.2 ∧ r2.1 ≤ p ∧ p < r2.2)) := by
  subst hdb
  refine ⟨?_, ?_, ?_, ?_⟩
  · intro b1 b2 r1 r2 hlt h1 h2
    exact bin_range_new_ordered NB normals vectors hNB hlt h1 h2
  · have hmapeq : (List.range (pow2 NB)).map (fun b =>
        match (LSHDB.new NB normals vectors).bin_range b with
        | some r => r.2 - r.1
        | none => 0)
        = (List.range (pow2 NB)).map
            (fun b => cntEq (sortedProj normals vectors) b) := by
      apply List.map_congr_left
      intro b hbmem
      have hb : b < pow2 NB := List.mem_range.mp hbmem
      by_cases h0 : cntEq (sortedProj normals vectors) b = 0
      · rw [bin_range_new_empty NB normals vectors hb h0]
        exact h0.symm
      · rw [bin_range_new NB normals vectors hNB b h0]
        show cntLt (sortedProj normals vectors) b
            + cntEq (sortedProj normals vectors) b
            - cntLt (sortedProj normals vectors) b = _
        omega
    rw [hmapeq,
      sum_cntEq_range (sortedProj normals vectors) (pow2 NB)
        (sortedProj_keys_lt NB normals vectors hNB),
      sortedProj_length]
  · intro p hp
    have hp2 : p < (sortedProj normals vectors).length := by
      rw [sortedProj_length]
      exact hp
    have hmem := List.get_mem (sortedProj normals vectors) p hp2
    have hblt : ((sortedProj normals vectors).get ⟨p, hp2⟩).2 < pow2 NB :=
      sortedProj_keys_lt NB normals vectors hNB _ hmem
    have hne : cntEq (sortedProj normals vectors)
        ((sortedProj normals vectors).get ⟨p, hp2⟩).2 ≠ 0 :=
      cntEq_ne_zero_of_mem hmem rfl
    have hblock := sorted_get_block (sortedProj normals vectors)
      ((sortedProj normals vectors).get ⟨p, hp2⟩).2
      (sortedProj_pairwise normals vectors) p hp2 rfl
    exact ⟨((sortedProj normals vectors).get ⟨p, hp2⟩).2, _, hblt,
      bin_range_new NB normals vectors hNB _ hne, hblock.1, hblock.2⟩
  · intro b1 b2 r1 r2 hne12 h1 h2 p hcon
    obtain ⟨hc1, hc2, hc3, hc4⟩ := hcon
    rcases Nat.lt_trichotomy b1 b2 with hlt | heq | hgt
    · have := bin_range_new_ordered NB normals vectors hNB hlt h1 h2
      omega
    · exact hne12 heq
    · have := bin_range_new_ordered NB normals vectors hNB hgt h2 h1
      omega

/-- C4 witness: the partition conjunction instantiated at the concrete
two-hyperplane, three-vector build `exDB`. -/
theorem claim_C4_witness :
    (∀ b1 b2 : Nat, ∀ r1 r2 : Nat × Nat, b1 < b2 → exDB.bin_range b1 = some r1 →
      exDB.bin_range b2 = some r2 → r1.2 ≤ r2.1) ∧
    ((List.range (pow2 2)).map (fun b =>
        match exDB.bin_range b with
        | some r => r.2 - r.1
        | none => 0)).sum = exVectors.length ∧
    (∀ p, p < exVectors.length → ∃ b : Nat, ∃ r : Nat × Nat, b < pow2 2 ∧
      exDB.bin_range b = some r ∧ r.1 ≤ p ∧ p < r.2) ∧
    (∀ b1 b2 : Nat, ∀ r1 r2 : Nat × Nat, b1 ≠ b2 → exDB.bin_range b1 = some r1 →
      exDB.bin_range b2 = some r2 →
      ∀ p, ¬ (r1.1 ≤ p ∧ p < r1.2 ∧ r2.1 ≤ p ∧ p < r2.2)) :=
  claim_C4 2 exNormals exVectors exDB rfl rfl

/-- C5: for every database built by `LSHDB::new`, querying with the `i`-th
corpus vector succeeds and the candidate sequence contains that vector's own
identifier; equivalently, the identifier sits inside the bucket range that
`bin_range` assigns to the bin the vector hashes to. -/
theorem claim_C5 {I : Type} (NB : Nat) (normals : List (List ℚ))
    (vectors : List (I × List ℚ)) (hNB : normals.length = NB)
    (i : Nat) (hi : i < vectors.length) :
    ∃ l : List I, ∃ r : Nat × Nat,
      (LSHDB.new NB normals vectors).ann (vectors.get ⟨i, hi⟩).2 = some l ∧
      (vectors.get ⟨i, hi⟩).1 ∈ l ∧
      (LSHDB.new NB normals vectors).bin_range
        (hyperplane_project normals (vectors.get ⟨i, hi⟩).2) = some r ∧
      ∃ n : Nat, ∃ hn : n < (LSHDB.new NB normals vectors).buf.length,
        r.1 ≤ n ∧ n < r.2 ∧
        (LSHDB.new NB normals vectors).buf.get ⟨n, hn⟩
          = (vectors.get ⟨i, hi⟩).1 := by
  have hvmem : vectors.get ⟨i, hi⟩ ∈ vectors := List.get_mem vectors i hi
  have hpmem : ((vectors.get ⟨i, hi⟩).1,
      hyperplane_project normals (vectors.get ⟨i, hi⟩).2)
      ∈ projectionsOf normals vectors := by
    rw [projectionsOf]
    exact List.mem_map_of_mem _ hvmem
  have hsmem : ((vectors.get ⟨i, hi⟩).1,
      hyperplane_project normals (vectors.get ⟨i, hi⟩).2)
      ∈ sortedProj normals vectors :=
    (sortedProj_perm normals vectors).mem_iff.mpr hpmem
  obtain ⟨m, hm⟩ := List.get_of_mem hsmem
  have hkey : ((sortedProj normals vectors).get m).2
      = hyperplane_project normals (vectors.get ⟨i, hi⟩).2 := by
    rw [hm]
  have hblock := sorted_get_block (sortedProj normals vectors)
    (hyperplane_project normals (vectors.get ⟨i, hi⟩).2)
    (sortedProj_pairwise normals vectors) m.1 m.2 hkey
  have hne : cntEq (sortedProj normals vectors)
      (hyperplane_project normals (vectors.get ⟨i, hi⟩).2) ≠ 0 :=
    cntEq_ne_zero_of_mem hsmem rfl
  have hr := bin_range_new NB normals vectors hNB
    (hyperplane_project normals (vectors.get ⟨i, hi⟩).2) hne
  have hann : (LSHDB.new NB normals vectors).ann (vectors.get ⟨i, hi⟩).2
      = ((LSHDB.new NB normals vectors).bin_range
          (hyperplane_project normals (vectors.get ⟨i, hi⟩).2)).map
        (fun rg => (((LSHDB.new NB normals vectors).buf.drop rg.1).take rg.2)) :=
    rfl
  rw [hr] at hann
  have hbuflen : (LSHDB.new NB normals vectors).buf.length
      = (sortedProj normals vectors).length := by
    rw [new_bufLen, sortedProj_length]
  have hmlt : m.1 < (LSHDB.new NB normals vectors).buf.length := by
    rw [hbuflen]
    exact m.2
  have hbufget : (LSHDB.new NB normals vectors).buf.get ⟨m.1, hmlt⟩
      = (vectors.get ⟨i, hi⟩).1 := by
    show ((sortedProj normals vectors).map Prod.fst).get ⟨m.1, hmlt⟩ = _
    rw [List.get_eq_getElem, List.getElem_map, ← List.get_eq_getElem
      (sortedProj normals vectors) ⟨m.1, m.2⟩, hm]
  refine ⟨_, _, hann, ?_, hr, m.1, hmlt, hblock.1, hblock.2, hbufget⟩
  -- membership of the identifier in the yielded list
  have hcle : cntLt (sortedProj normals vectors)
      (hyperplane_project normals (vectors.get ⟨i, hi⟩).2) ≤ m.1 := hblock.1
  have hcnt : m.1 < cntLt (sortedProj normals vectors)
        (hyperplane_project normals (vectors.get ⟨i, hi⟩).2)
      + cntEq (sortedProj normals vectors)
        (hyperplane_project normals (vectors.get ⟨i, hi⟩).2) := hblock.2
  have hlen2 : m.1 - cntLt (sortedProj normals vectors)
        (hyperplane_project normals (vectors.get ⟨i, hi⟩).2)
      < ((((LSHDB.new NB normals vectors).buf.drop
          (cntLt (sortedProj normals vectors)
            (hyperplane_project normals (vectors.get ⟨i, hi⟩).2))).take
          (cntLt (sortedProj normals vectors)
            (hyperplane_project normals (vectors.get ⟨i, hi⟩).2)
            + cntEq (sortedProj normals vectors)
              (hyperplane_project normals (vectors.get ⟨i, hi⟩).2)))).length := by
    rw [List.length_take, List.length_drop, lt_min_iff]
    have hm2 : m.1 < (sortedProj normals vectors).length := m.2
    exact ⟨by omega, by omega⟩
  have hgot := get_take_drop (LSHDB.new NB normals vectors).buf
    (cntLt (sortedProj normals vectors)
      (hyperplane_project normals (vectors.get ⟨i, hi⟩).2))
    (cntLt (sortedProj normals vectors)
      (hyperplane_project normals (vectors.get ⟨i, hi⟩).2)
      + cntEq (sortedProj normals vectors)
        (hyperplane_project normals (vectors.get ⟨i, hi⟩).2))
    (m.1 - cntLt (sortedProj normals vectors)
      (hyperplane_project normals (vectors.get ⟨i, hi⟩).2)) hlen2
  have hidx : cntLt (sortedProj normals vectors)
        (hyperplane_project normals (vectors.get ⟨i, hi⟩).2)
      + (m.1 - cntLt (sortedProj normals vectors)
          (hyperplane_project normals (vectors.get ⟨i, hi⟩).2)) = m.1 := by
    omega
  have hmem2 := List.get_mem _ _ hlen2
  rw [hgot] at hmem2
  simp only [hidx] at hmem2
  have : (LSHDB.new NB normals vectors).buf.get ⟨m.1, by omega⟩
      = (vectors.get ⟨i, hi⟩).1 := hbufget
  rw [this] at hmem2
  exact hmem2

/-- C5 witness: self-retrieval instantiated for corpus entry `0` of the
concrete build `exDB`. -/
theorem claim_C5_witness :
    ∃ l : List Nat, ∃ r : Nat × Nat,
      (LSHDB.new 2 exNormals exVectors).ann
        (exVectors.get ⟨0, by decide⟩).2 = some l ∧
      (exVectors.get ⟨0, by decide⟩).1 ∈ l ∧
      (LSHDB.new 2 exNormals exVectors).bin_range
        (hyperplane_project exNormals (exVectors.get ⟨0, by decide⟩).2) = some r ∧
      ∃ n : Nat, ∃ hn : n < (LSHDB.new 2 exNormals exVectors).buf.length,
        r.1 ≤ n ∧ n < r.2 ∧
        (LSHDB.new 2 exNormals exVectors).buf.get ⟨n, hn⟩
          = (exVectors.get ⟨0, by decide⟩).1 :=
  claim_C5 2 exNormals exVectors rfl 0 (by decide)

theorem updateRanges_length {N : Nat} :
    ∀ (l : List (Nat × (Nat × Nat))) (rs rs2 : List (Option (Nat × Nat))),
      updateRanges N rs l = some rs2 → rs2.length = rs.length
  | [], rs, rs2, h => by
    have h2 : rs = rs2 := Option.some.inj h
    rw [h2]
  | (idx, pr) :: rest, rs, rs2, h => by
    rw [updateRanges] at h
    cases hg : rs[pr.2]? with
    | none =>
      rw [hg] at h
      exact Option.noConfusion h
    | some cur =>
      rw [hg] at h
      have ih := updateRanges_length rest _ rs2 h
      rw [ih, List.length_set]

theorem updateRanges_inv {N : Nat} :
    ∀ (ps : List (Nat × Nat)) (k : Nat) (rs rs2 : List (Option (Nat × Nat))),
      k + ps.length ≤ N →
      (∀ ab : Nat × Nat, some ab ∈ rs → ab.1 < k ∧ ab.1 ≤ ab.2 ∧ ab.2 ≤ N) →
      updateRanges N rs (List.enumFrom k ps) = some rs2 →
      ∀ ab : Nat × Nat, some ab ∈ rs2 → ab.1 ≤ ab.2 ∧ ab.2 ≤ N
  | [], k, rs, rs2, _, hinv, h, ab, hab => by
    have h2 : rs = rs2 := Option.some.inj h
    rw [← h2] at hab
    exact ⟨(hinv ab hab).2.1, (hinv ab hab).2.2⟩
  | p :: t, k, rs, rs2, hk, hinv, h, ab, hab => by
    rw [List.enumFrom_cons, updateRanges] at h
    have hkN : k < N := by
      simp only [List.length_cons] at hk
      omega
    have hlen : (k + 1) + t.length ≤ N := by
      simp only [List.length_cons] at hk
      omega
    cases hg : rs[p.2]? with
    | none =>
      rw [hg] at h
      exact Option.noConfusion h
    | some cur =>
      have hcur : cur ∈ rs := by
        obtain ⟨hlt2, heq⟩ := List.getElem?_eq_some.mp hg
        rw [← heq]
        exact List.getElem_mem hlt2
      rw [hg] at h
      cases cur with
      | some er =>
        have her := hinv er hcur
        have h2 : updateRanges N (rs.set p.2 (some (er.1, k)))
            (List.enumFrom (k + 1) t) = some rs2 := h
        have hinv2 : ∀ ab2 : Nat × Nat, some ab2 ∈ rs.set p.2 (some (er.1, k)) →
            ab2.1 < k + 1 ∧ ab2.1 ≤ ab2.2 ∧ ab2.2 ≤ N := by
          intro ab2 hab2
          rcases List.mem_or_eq_of_mem_set hab2 with hmem | heq
          · have hold := hinv ab2 hmem
            exact ⟨by omega, hold.2.1, hold.2.2⟩
          · have hab2e : ab2 = (er.1, k) := Option.some.inj heq
            rw [hab2e]
            exact ⟨by omega, by omega, by omega⟩
        exact updateRanges_inv t (k + 1) _ rs2 hlen hinv2 h2 ab hab
      | none =>
        have h2 : updateRanges N (rs.set p.2 (some (k, N)))
            (List.enumFrom (k + 1) t) = some rs2 := h
        have hinv2 : ∀ ab2 : Nat × Nat, some ab2 ∈ rs.set p.2 (some (k, N)) →
            ab2.1 < k + 1 ∧ ab2.1 ≤ ab2.2 ∧ ab2.2 ≤ N := by
          intro ab2 hab2
          rcases List.mem_or_eq_of_mem_set hab2 with hmem | heq
          · have hold := hinv ab2 hmem
            exact ⟨by omega, hold.2.1, hold.2.2⟩
          · have hab2e : ab2 = (k, N) := Option.some.inj heq
            rw [hab2e]
            exact ⟨by omega, by omega, Nat.le_refl N⟩
        exact updateRanges_inv t (k + 1) _ rs2 hlen hinv2 h2 ab hab

theorem arr_get_of_none {I : Type} (a : ArrIndex I) (b : Nat)
    (h : a.ranges[b]? = none) : a.get b = some none := by
  rw [ArrIndex.get, h]
  rfl

theorem arr_get_of_unset {I : Type} (a : ArrIndex I) (b : Nat)
    (h : a.ranges[b]? = some none) : a.get b = some none := by
  rw [ArrIndex.get, h]
  rfl

theorem arr_get_of_set {I : Type} (a : ArrIndex I) (b : Nat) (r : Nat × Nat)
    (h : a.ranges[b]? = some (some r)) (h2 : r.1 ≤ r.2 ∧ r.2 ≤ a.arr.length) :
    a.get b = some (some ((a.arr.take r.2).drop r.1)) := by
  rw [ArrIndex.get, h]
  show (if r.1 ≤ r.2 ∧ r.2 ≤ a.arr.length then _ else _) = _
  rw [if_pos h2]

/-- C10: every index `ArrIndex::build_concatenate` actually returns has
well-formed ranges (`start ≤ end ≤ N`), so `ArrIndex::get` is total: it
returns `None` for an out-of-range bin (`b ≥ NB`) or an unset bin, and
otherwise slices `arr` in bounds — it never panics (the panicking slice is
modelled by the outer `none`, which is never produced). -/
theorem claim_C10 (NB : Nat) (bin : List ℚ → Nat) (x : List (List ℚ))
    (a : ArrIndex Nat) (h : build_concatenate NB bin x = some a) :
    (∀ ab : Nat × Nat, some ab ∈ a.ranges → ab.1 ≤ ab.2 ∧ ab.2 ≤ x.length) ∧
    a.ranges.length = NB ∧
    (∀ b : Nat, a.get b ≠ none) ∧
    (∀ b : Nat, NB ≤ b → a.get b = some none) ∧
    (∀ b : Nat, a.ranges[b]? = some none → a.get b = some none) := by
  rw [build_concatenate] at h
  cases hu : updateRanges x.length (List.replicate NB none)
      (sortPairs (x.enum.map (fun p => (p.1, bin p.2)))).enum with
  | none =>
    rw [hu] at h
    exact Option.noConfusion h
  | some ranges =>
    rw [hu] at h
    have ha : a = ArrIndex.mk ranges
        ((sortPairs (x.enum.map (fun p => (p.1, bin p.2)))).map Prod.fst) :=
      (Option.some.inj h).symm
    have hslen : (sortPairs (x.enum.map (fun p => (p.1, bin p.2)))).length
        = x.length := by
      rw [sortPairs, List.length_insertionSort, List.length_map,
        List.enum_length]
    have henum : (sortPairs (x.enum.map (fun p => (p.1, bin p.2)))).enum
        = List.enumFrom 0 (sortPairs (x.enum.map (fun p => (p.1, bin p.2)))) :=
      rfl
    rw [henum] at hu
    have hwf : ∀ ab : Nat × Nat, some ab ∈ ranges →
        ab.1 ≤ ab.2 ∧ ab.2 ≤ x.length := by
      apply updateRanges_inv (sortPairs (x.enum.map (fun p => (p.1, bin p.2))))
        0 (List.replicate NB none) ranges (by omega) ?_ hu
      intro ab hab
      exact absurd (List.eq_of_mem_replicate hab) (by simp)
    have hrlen : ranges.length = NB := by
      rw [updateRanges_length _ _ _ hu, List.length_replicate]
    have harrlen : (ArrIndex.mk ranges
        ((sortPairs (x.enum.map (fun p => (p.1, bin p.2)))).map Prod.fst)
        ).arr.length = x.length := by
      show ((sortPairs (x.enum.map (fun p => (p.1, bin p.2)))).map
        Prod.fst).length = x.length
      rw [List.length_map, hslen]
    subst ha
    refine ⟨hwf, hrlen, ?_, ?_, ?_⟩
    · intro b
      cases hrb : ranges[b]? with
      | none =>
        rw [arr_get_of_none _ b hrb]
        simp
      | some o =>
        cases o with
        | none =>
          rw [arr_get_of_unset _ b hrb]
          simp
        | some r =>
          have hrmem : some r ∈ ranges := by
            obtain ⟨hlt2, heq⟩ := List.getElem?_eq_some.mp hrb
            rw [← heq]
            exact List.getElem_mem hlt2
          have hr2 := hwf r hrmem
          rw [arr_get_of_set _ b r hrb (by rw [harrlen]; exact hr2)]
          simp
    · intro b hb
      apply arr_get_of_none
      apply List.getElem?_eq_none
      show ranges.length ≤ b
      omega
    · intro b hrb
      exact arr_get_of_unset _ b hrb

/-- C10 witness: a concrete two-vector build with a single bin, on which the
built index's ranges are well-formed and `get` is total. -/
theorem claim_C10_witness :
    (∀ ab : Nat × Nat, some ab ∈ exArr.ranges → ab.1 ≤ ab.2 ∧ ab.2 ≤ 2) ∧
    exArr.ranges.length = 1 ∧
    (∀ b : Nat, exArr.get b ≠ none) ∧
    (∀ b : Nat, 1 ≤ b → exArr.get b = some none) ∧
    (∀ b : Nat, exArr.ranges[b]? = some none → exArr.get b = some none) :=
  claim_C10 1 (fun _ => 0) [[0], [1]] exArr rfl
